import Mathlib

/-!
Verification development for the `cdl.py` course-directory navigation tool
(`opt/cdl/cdl.py`).  The Python program is shallowly embedded: strings are
Lean `String`s, filesystem paths are lists of path components relative to
`Config.MAGSHIMIM_DIR_PATH` (`Path.home() / "Magshimim"`), and the filesystem
is an explicit state record threaded through the pipeline.  Python's fallible
operations (`int(...)`, `pathlib.Path.mkdir`) are embedded as `Res`-returning
functions where `Res.err` stands for the raised exception.
-/

namespace Cdl

/-- Result of a Python computation: `ok` or a raised exception
(`ValueError` from `int(...)`, `OSError` from `mkdir`, ...). -/
inductive Res (α : Type) where
  | ok (a : α) : Res α
  | err : Res α
deriving DecidableEq

/-- Models `str.isdigit` restricted to ASCII decimal digits, which is what
`int` consumes for the directory names at hand. -/
def isDig (c : Char) : Bool := c.isDigit

/-- Numeric value of an ASCII digit character. -/
def digitVal (c : Char) : Nat := c.toNat - 48

/-- Models the whitespace characters `int(str)` strips (ASCII subset of
Python `str.isspace`). -/
def isPySpace (c : Char) : Bool :=
  (c == ' ') || (c == '\t') || (c == '\n') || (c == '\r') || (c == '\x0b') || (c == '\x0c')

/-- Consumes the tail of a CPython integer-literal digit part: digits with
single underscores allowed between digits.  The `Bool` flag records that the
previous character was an underscore (so the next one must be a digit). -/
def digitTail : Bool → Nat → List Char → Option Nat
  | false, acc, [] => some acc
  | true, _, [] => none
  | u, acc, c :: cs =>
    if isDig c then digitTail false (acc * 10 + digitVal c) cs
    else if (c == '_') && !u then digitTail true acc cs
    else none

/-- Parses a full CPython digit part: a digit followed by digits with
optional single separating underscores. -/
def parseDigitPart : List Char → Option Nat
  | [] => none
  | c :: cs => if isDig c then digitTail false (digitVal c) cs else none

/-- Handles the optional single sign in front of the digit part, as
`int(str)` does. -/
def pyIntCore (l : List Char) : Option Int :=
  match l with
  | [] => none
  | c :: rest =>
    if c = '+' then (parseDigitPart rest).map (fun n => (n : Int))
    else if c = '-' then (parseDigitPart rest).map (fun n => -(n : Int))
    else (parseDigitPart l).map (fun n => (n : Int))

/-- Models Python `int(s)` on a decimal string: surrounding whitespace is
stripped, then an optional sign and a digit part (with underscores) are
parsed; `none` models the raised `ValueError`. -/
def pyInt (s : String) : Option Int :=
  pyIntCore (((s.data.dropWhile isPySpace).reverse.dropWhile isPySpace).reverse)

/-- Models Python `s.lstrip(chars)`: removes the longest leading run of
characters that are members of the character set of `chars` (NOT the literal
removal of `chars` as a single leading substring). -/
def pyLstrip (s chars : String) : String :=
  ⟨s.data.dropWhile (fun c => decide (c ∈ chars.data))⟩

/-- Models Python `s.startswith(pfx)` (`Config.IS_COURSE_DIR` and
`Config.IS_WEEK_DIR` are `lambda s: s.startswith(...)`). -/
def startswith (s pfx : String) : Bool := pfx.data.isPrefixOf s.data

/-- Key function used by `Config.GET_LATEST_COURSE` / `GET_LATEST_WEEK`:
`lambda c: int(c.lstrip(pfx))`, with `none` modelling the `ValueError`. -/
def stripKey (pfx c : String) : Option Int := pyInt (pyLstrip c pfx)

/-- Models the loop of CPython `max(best :: rest, key=key)` after the first
element: keys are computed in iteration order, a strictly greater key
replaces the current best (so the FIRST maximal element is kept), and a key
failure (`ValueError` from `int`) aborts the whole call. -/
def maxByKeyAux (key : String → Option Int) : String → Int → List String → Res String
  | best, _, [] => Res.ok best
  | best, kbest, c :: cs =>
    match key c with
    | none => Res.err
    | some kc => if kbest < kc then maxByKeyAux key c kc cs else maxByKeyAux key best kbest cs

/-- Models `max(names, key=key) if names else None` as used by
`get_latest_course` / `get_latest_week`. -/
def pyMax (key : String → Option Int) : List String → Res (Option String)
  | [] => Res.ok none
  | x :: xs =>
    match key x with
    | none => Res.err
    | some kx =>
      match maxByKeyAux key x kx xs with
      | Res.ok m => Res.ok (some m)
      | Res.err => Res.err

/-- Shared shape of `get_latest_course` and `get_latest_week` (the spec's
`find_latest(candidates, prefix)`): filter the candidate names by
`startswith pfx`, then take the maximum by `int(name.lstrip(pfx))`. -/
def find_latest (pfx : String) (names : List String) : Res (Option String) :=
  pyMax (stripKey pfx) (names.filter (fun c => startswith c pfx))

/-- Models `get_latest_course` as a function of the directory listing:
`courses = [c for c in listing if c.startswith("course")]`, then
`max(courses, key=lambda c: int(c.lstrip("course"))) if courses else None`. -/
def get_latest_course (names : List String) : Res (Option String) :=
  find_latest "course" names

/-- Models `get_latest_week` as a function of the directory listing, with
the `"week"` predicate and key. -/
def get_latest_week (names : List String) : Res (Option String) :=
  find_latest "week" names

/-- Suffix of a name after removing a leading substring of the length of
`pfx`; this is the spec's notion of "strip the prefix and parse the
remainder" used to compare against the code's `lstrip` behaviour. -/
def suffixAfter (c pfx : String) : String := ⟨c.data.drop pfx.data.length⟩

/-- Filesystem state: the sets of existing directory paths and existing file
paths, each a list of path components relative to
`Config.MAGSHIMIM_DIR_PATH` (so the Lean root directory stands for
`Path.home() / "Magshimim"`). -/
structure FS where
  dirs : List (List String)
  files : List (List String)
deriving DecidableEq

/-- All nonempty ancestor paths of a path, in root-to-leaf order, the path
itself included last. -/
def ancestors : List String → List (List String)
  | [] => []
  | a :: rest => [a] :: (ancestors rest).map (fun q => a :: q)

/-- Adds a path to a directory set if it is not yet present (preserving the
listing order of the ones already there). -/
def insertPath (d : List (List String)) (p : List String) : List (List String) :=
  if p ∈ d then d else d ++ [p]

/-- Models `mkdir_gracefully(path)`, i.e.
`Path(path).mkdir(parents=True, exist_ok=True)`: creates the path and all
missing ancestors, succeeds silently when the directory already exists, and
fails (`Res.err`, the raised `OSError`) when some path segment exists as a
non-directory file.  Files are never modified. -/
def mkdir_gracefully (fs : FS) (p : List String) : Res FS :=
  if (ancestors p).any (fun q => decide (q ∈ fs.files)) then Res.err
  else Res.ok ⟨(ancestors p).foldl insertPath fs.dirs, fs.files⟩

/-- Name of a direct child of directory `p` reached by path `q`, if any. -/
def childName (p q : List String) : Option String :=
  if q.length = p.length + 1 ∧ q.take p.length = p then q.getLast? else none

/-- Models `os.listdir(p)`: the names of the entries (directories and files)
directly inside `p`.  The on-disk order is unspecified in Python; the model
fixes the order of the state record. -/
def listdir (fs : FS) (p : List String) : List String :=
  fs.dirs.filterMap (childName p) ++ fs.files.filterMap (childName p)

/-- Filesystem operation performed by the program, for tracing which
directories a run lists or creates. -/
inductive Op where
  | listDir (p : List String) : Op
  | mkdirOp (p : List String) : Op
deriving DecidableEq

/-- Filesystem state together with the trace of operations performed so
far in the current run. -/
structure World where
  fs : FS
  ops : List Op
deriving DecidableEq

/-- Traced `mkdir_gracefully` call as performed by the pipeline. -/
def mkdirW (w : World) (p : List String) : Res World :=
  match mkdir_gracefully w.fs p with
  | Res.ok fs' => Res.ok ⟨fs', w.ops ++ [Op.mkdirOp p]⟩
  | Res.err => Res.err

/-- Traced `os.listdir` call as performed by the pipeline. -/
def listdirW (w : World) (p : List String) : List String × World :=
  (listdir w.fs p, ⟨w.fs, w.ops ++ [Op.listDir p]⟩)

/-- Models `Config.create_week_dir(week_path)`: materializes the three fixed
subdirectories `classwork`, `homework/src` and `homework/answ` beneath the
week path (creating the week directory itself as their ancestor). -/
def create_week_dir (w : World) (week_path : List String) : Res World :=
  match mkdirW w (week_path ++ ["classwork"]) with
  | Res.err => Res.err
  | Res.ok w1 =>
    match mkdirW w1 (week_path ++ ["homework", "src"]) with
    | Res.err => Res.err
    | Res.ok w2 => mkdirW w2 (week_path ++ ["homework", "answ"])

/-- Parsed command-line arguments (`argparse.Namespace` fields of
`create_parser()`): positional `directory`, optional positional `hw`
(default `"h"`), options `-c` and `-w`. -/
structure Args where
  directory : String
  hw : String
  c : Option String
  w : Option String
deriving DecidableEq

/-- Models `Config.COURSES`: alias to directory-name mapping, in insertion
order. -/
def COURSES : List (String × String) := [("p", "programming_cpp"), ("a", "assembly")]

/-- Token scan of the command line: `-c` and `-w` each consume the following
token as their value (a dangling option is a usage error), every other token
is collected as a positional argument.  Option values are modelled as
separate tokens. -/
def parseTokens : List String → List String → Option String → Option String →
    Res (List String × Option String × Option String)
  | [], pos, c, w => Res.ok (pos, c, w)
  | ["-c"], _, _, _ => Res.err
  | ["-w"], _, _, _ => Res.err
  | "-c" :: v :: rest, pos, _, w => parseTokens rest pos (some v) w
  | "-w" :: v :: rest, pos, c, _ => parseTokens rest pos c (some v)
  | t :: rest, pos, c, w => parseTokens rest (pos ++ [t]) c w

/-- Dispatches on the positional arguments collected by the token scan:
exactly `[directory]` or `[directory, hw]` is accepted, with argparse
`choices` checked for each. -/
def parsePos : List String → Option String → Option String → Res Args
  | [d], c, w =>
    if d ∈ COURSES.map Prod.fst then Res.ok ⟨d, "h", c, w⟩ else Res.err
  | [d, hw], c, w =>
    if d ∈ COURSES.map Prod.fst ∧ (hw = "c" ∨ hw = "h") then Res.ok ⟨d, hw, c, w⟩
    else Res.err
  | _, _, _ => Res.err

/-- Models `create_parser().parse_args(argv)`: the first positional is
`directory` and must be one of the configured aliases (`choices`), the
optional second positional is `hw` with `choices=["c","h"]` and default
`"h"`; any other positional arity is a usage error.  `Res.err` models
argparse rejecting the command line (it prints usage and exits 2). -/
def parse_args (argv : List String) : Res Args :=
  match parseTokens argv [] none none with
  | Res.err => Res.err
  | Res.ok (pos, c, w) => parsePos pos c w

/-- Models `Config.COURSES[args.directory]`.  The parser's `choices`
guarantee the alias is present, so the `""` fallback is unreachable on the
pipeline's inputs. -/
def selectedDirname (a : String) : String := (List.lookup a COURSES).getD ""

/-- Models `get_course(path, args)`: with no `-c`, a pure latest-course
lookup over the directory listing; with `-c ID`, materialize
`course{ID}` under `path` and select it. -/
def get_course (w : World) (path : List String) (args : Args) :
    Res (Option String) × World :=
  match args.c with
  | none =>
    ((get_latest_course (listdirW w path).1), (listdirW w path).2)
  | some cid =>
    match mkdirW w (path ++ ["course" ++ cid]) with
    | Res.ok w' => (Res.ok (some ("course" ++ cid)), w')
    | Res.err => (Res.err, w)

/-- Models `get_week(course_path, args)`: with no `-w`, a pure latest-week
lookup; with `-w ID`, run the week scaffold `create_week_dir` on
`course_path/week{ID}` and select it. -/
def get_week (w : World) (course_path : List String) (args : Args) :
    Res (Option String) × World :=
  match args.w with
  | none =>
    ((get_latest_week (listdirW w course_path).1), (listdirW w course_path).2)
  | some wid =>
    match create_week_dir w (course_path ++ ["week" ++ wid]) with
    | Res.ok w' => (Res.ok (some ("week" ++ wid)), w')
    | Res.err => (Res.err, w)

/-- Message of `parser.error` when no course directory can be selected. -/
def noCourseMsg : String := "no course dir to use. Please specify with -c flag"

/-- Message of `parser.error` when no week directory can be selected. -/
def noWeekMsg : String := "no week dir to use. Please specify with -w flag"

/-- Observable outcome of one run of `main()`: process exit code, the path
printed to standard output on success, the error message (usage error or
uncaught-exception traceback) otherwise, the final filesystem state, and the
trace of filesystem operations performed. -/
structure RunResult where
  exitCode : Nat
  output : Option (List String)
  err : Option String
  fs : FS
  ops : List Op
deriving DecidableEq

/-- Models `main()`: parse the arguments (usage errors exit 2 before any
filesystem access), materialize the category base directory, resolve the
course and the week (`parser.error`, exit 2, when a latest-lookup finds
nothing), then print the leaf path selected by `args.hw`.  An uncaught
Python exception (`ValueError` from `int`, `OSError` from `mkdir`) ends the
process with exit code 1 and a traceback. -/
def main (argv : List String) (fs : FS) : RunResult :=
  match parse_args argv with
  | Res.err => ⟨2, none, some "usage", fs, []⟩
  | Res.ok args =>
    match mkdirW ⟨fs, []⟩ [selectedDirname args.directory] with
    | Res.err => ⟨1, none, some "traceback", fs, []⟩
    | Res.ok w1 =>
      match get_course w1 [selectedDirname args.directory] args with
      | (Res.err, w2) => ⟨1, none, some "traceback", w2.fs, w2.ops⟩
      | (Res.ok none, w2) => ⟨2, none, some noCourseMsg, w2.fs, w2.ops⟩
      | (Res.ok (some course), w2) =>
        match get_week w2 ([selectedDirname args.directory] ++ [course]) args with
        | (Res.err, w3) => ⟨1, none, some "traceback", w3.fs, w3.ops⟩
        | (Res.ok none, w3) => ⟨2, none, some noWeekMsg, w3.fs, w3.ops⟩
        | (Res.ok (some week), w3) =>
          if args.hw = "c" then
            ⟨0, some (([selectedDirname args.directory] ++ [course] ++ [week]) ++ ["classwork"]),
              none, w3.fs, w3.ops⟩
          else if args.hw = "h" then
            ⟨0, some (([selectedDirname args.directory] ++ [course] ++ [week]) ++ ["homework", "answ"]),
              none, w3.fs, w3.ops⟩
          else
            ⟨0, some ([selectedDirname args.directory] ++ [course] ++ [week]), none, w3.fs, w3.ops⟩

/-- Accumulated value of a digit string read left to right on top of `acc`,
matching what `int` computes on a plain run of digits. -/
def natOfDigits (acc : Nat) (l : List Char) : Nat :=
  l.foldl (fun a c => a * 10 + digitVal c) acc

/-! ### Lemmas about directory-set insertion and `mkdir_gracefully` -/

theorem mem_insertPath (d : List (List String)) (p q : List String) :
    q ∈ insertPath d p ↔ q ∈ d ∨ q = p := by
  unfold insertPath
  by_cases h : p ∈ d
  · rw [if_pos h]
    constructor
    · exact Or.inl
    · rintro (hq | rfl)
      · exact hq
      · exact h
  · rw [if_neg h]
    simp [List.mem_append]

theorem insertPath_eq_of_mem (d : List (List String)) (p : List String) (h : p ∈ d) :
    insertPath d p = d := by
  unfold insertPath
  rw [if_pos h]

theorem mem_foldl_insertPath (l : List (List String)) :
    ∀ (d : List (List String)) (q : List String),
      q ∈ l.foldl insertPath d ↔ q ∈ d ∨ q ∈ l := by
  induction l with
  | nil => simp
  | cons a t ih =>
    intro d q
    rw [List.foldl_cons, ih, mem_insertPath]
    simp only [List.mem_cons]
    tauto

theorem foldl_insertPath_eq_of_subset (l : List (List String)) :
    ∀ d : List (List String), (∀ q ∈ l, q ∈ d) → l.foldl insertPath d = d := by
  induction l with
  | nil => intro d _; rfl
  | cons a t ih =>
    intro d h
    rw [List.foldl_cons, insertPath_eq_of_mem d a (h a (List.mem_cons_self a t))]
    exact ih d (fun q hq => h q (List.mem_cons_of_mem a hq))

theorem self_mem_ancestors : ∀ p : List String, p ≠ [] → p ∈ ancestors p := by
  intro p
  induction p with
  | nil => intro h; exact absurd rfl h
  | cons a rest ih =>
    intro _
    unfold ancestors
    rcases List.eq_nil_or_concat rest with h | _
    · subst h
      simp [ancestors]
    · rcases h : rest with _ | ⟨b, t⟩
      · simp [h, ancestors]
      · rw [← h]
        refine List.mem_cons_of_mem _ (List.mem_map.mpr ⟨rest, ih ?_, rfl⟩)
        rw [h]
        exact List.cons_ne_nil b t

theorem mem_ancestors_append :
    ∀ (p l : List String), p ≠ [] → p ∈ ancestors (p ++ l) := by
  intro p
  induction p with
  | nil => intro l h; exact absurd rfl h
  | cons a rest ih =>
    intro l _
    show a :: rest ∈ ancestors (a :: (rest ++ l))
    unfold ancestors
    rcases h : rest with _ | ⟨b, t⟩
    · exact List.mem_cons_self _ _
    · rw [← h]
      refine List.mem_cons_of_mem _ (List.mem_map.mpr ⟨rest, ih l ?_, rfl⟩)
      rw [h]
      exact List.cons_ne_nil b t

theorem mkdir_gracefully_ok (fs fs' : FS) (p : List String)
    (h : mkdir_gracefully fs p = Res.ok fs') :
    fs'.files = fs.files ∧
    fs'.dirs = (ancestors p).foldl insertPath fs.dirs ∧
    (∀ q ∈ ancestors p, q ∈ fs'.dirs) ∧
    (∀ q ∈ fs.dirs, q ∈ fs'.dirs) := by
  unfold mkdir_gracefully at h
  by_cases hg : (ancestors p).any (fun q => decide (q ∈ fs.files)) = true
  · rw [if_pos hg] at h
    exact absurd h (by simp)
  · rw [if_neg hg] at h
    have hfs' : fs' = ⟨(ancestors p).foldl insertPath fs.dirs, fs.files⟩ := by
      injection h with h'
      exact h'.symm
    subst hfs'
    refine ⟨rfl, rfl, ?_, ?_⟩
    · intro q hq
      exact (mem_foldl_insertPath (ancestors p) fs.dirs q).mpr (Or.inr hq)
    · intro q hq
      exact (mem_foldl_insertPath (ancestors p) fs.dirs q).mpr (Or.inl hq)

theorem mkdir_gracefully_ok_again (fs fs' : FS) (p : List String)
    (h : mkdir_gracefully fs p = Res.ok fs') :
    mkdir_gracefully fs' p = Res.ok fs' := by
  obtain ⟨hfiles, hdirs, hanc, _⟩ := mkdir_gracefully_ok fs fs' p h
  unfold mkdir_gracefully at h ⊢
  by_cases hg : (ancestors p).any (fun q => decide (q ∈ fs.files)) = true
  · rw [if_pos hg] at h
    exact absurd h (by simp)
  · rw [hfiles, if_neg hg, hdirs]
    rw [foldl_insertPath_eq_of_subset (ancestors p) _ (by
      intro q hq
      rw [← hdirs]
      exact hanc q hq)]
    rw [if_neg hg] at h
    exact h

/-! ### Lemmas about character classes and integer parsing -/

theorem data_mk (l : List Char) : (⟨l⟩ : String).data = l := rfl

theorem isPySpace_false_of_isDig (c : Char) (h : isDig c = true) : isPySpace c = false := by
  by_contra hc
  rw [Bool.not_eq_false] at hc
  simp only [isPySpace, Bool.or_eq_true, beq_iff_eq] at hc
  rcases hc with ((((rfl | rfl) | rfl) | rfl) | rfl) | rfl <;> exact absurd h (by decide)

theorem not_mem_of_isDig (c : Char) (cs : List Char) (h : isDig c = true)
    (hcs : ∀ ch ∈ cs, isDig ch = false) : c ∉ cs := by
  intro hm
  rw [hcs c hm] at h
  simp at h

theorem dropWhile_cons_false (p : Char → Bool) (a : Char) (l : List Char)
    (h : p a = false) : (a :: l).dropWhile p = a :: l := by
  simp [List.dropWhile_cons, h]

theorem dropWhile_append_of_all (p : Char → Bool) :
    ∀ l₁ l₂ : List Char, (∀ a ∈ l₁, p a = true) →
      (l₁ ++ l₂).dropWhile p = l₂.dropWhile p := by
  intro l₁
  induction l₁ with
  | nil => intro l₂ _; rfl
  | cons a t ih =>
    intro l₂ h
    rw [List.cons_append, List.dropWhile_cons, if_pos (h a (List.mem_cons_self a t))]
    exact ih l₂ (fun b hb => h b (List.mem_cons_of_mem a hb))

theorem isPrefixOf_append (l₁ l₂ : List Char) : l₁.isPrefixOf (l₁ ++ l₂) = true := by
  induction l₁ with
  | nil => cases l₂ <;> rfl
  | cons a t ih => simp [List.isPrefixOf, ih]

theorem startswith_append (pfx : String) (ds : List Char) :
    startswith ⟨pfx.data ++ ds⟩ pfx = true := by
  unfold startswith
  rw [data_mk]
  exact isPrefixOf_append pfx.data ds

theorem natOfDigits_cons (acc : Nat) (c : Char) (l : List Char) :
    natOfDigits acc (c :: l) = natOfDigits (acc * 10 + digitVal c) l := rfl

theorem digitTail_all (l : List Char) :
    ∀ acc : Nat, (∀ c ∈ l, isDig c = true) →
      digitTail false acc l = some (natOfDigits acc l) := by
  induction l with
  | nil => intro acc _; rfl
  | cons c cs ih =>
    intro acc h
    simp only [digitTail]
    rw [if_pos (h c (List.mem_cons_self c cs))]
    rw [ih (acc * 10 + digitVal c) (fun b hb => h b (List.mem_cons_of_mem c hb))]
    rfl

theorem parseDigitPart_all (l : List Char) (h0 : l ≠ [])
    (hd : ∀ c ∈ l, isDig c = true) :
    parseDigitPart l = some (natOfDigits 0 l) := by
  cases l with
  | nil => exact absurd rfl h0
  | cons d dt =>
    simp only [parseDigitPart]
    rw [if_pos (hd d (List.mem_cons_self d dt))]
    rw [digitTail_all dt (digitVal d) (fun b hb => hd b (List.mem_cons_of_mem d hb))]
    rw [natOfDigits_cons]
    simp

theorem pyInt_of_digits (l : List Char) (h0 : l ≠ [])
    (hd : ∀ c ∈ l, isDig c = true) :
    pyInt ⟨l⟩ = some ((natOfDigits 0 l : Nat) : Int) := by
  cases l with
  | nil => exact absurd rfl h0
  | cons d dt =>
    have hdig : isDig d = true := hd d (List.mem_cons_self d dt)
    unfold pyInt
    rw [data_mk, dropWhile_cons_false isPySpace d dt (isPySpace_false_of_isDig d hdig)]
    have hrev : ((d :: dt).reverse.dropWhile isPySpace).reverse = d :: dt := by
      cases hr : (d :: dt).reverse with
      | nil => exact absurd hr (by simp)
      | cons a t =>
        have ha : a ∈ d :: dt := by
          rw [← List.mem_reverse, hr]
          exact List.mem_cons_self a t
        rw [dropWhile_cons_false isPySpace a t (isPySpace_false_of_isDig a (hd a ha)),
          ← hr, List.reverse_reverse]
    rw [hrev]
    have hplus : ¬ d = '+' := fun he => by rw [he] at hdig; exact absurd hdig (by decide)
    have hminus : ¬ d = '-' := fun he => by rw [he] at hdig; exact absurd hdig (by decide)
    simp only [pyIntCore]
    rw [if_neg hplus, if_neg hminus, parseDigitPart_all (d :: dt) (List.cons_ne_nil d dt) hd]
    rfl

theorem stripKey_digit_suffix (pfx : String) (hpfx : ∀ ch ∈ pfx.data, isDig ch = false)
    (ds : List Char) (h0 : ds ≠ []) (hd : ∀ c ∈ ds, isDig c = true) :
    stripKey pfx ⟨pfx.data ++ ds⟩ = some ((natOfDigits 0 ds : Nat) : Int) := by
  unfold stripKey pyLstrip
  rw [data_mk]
  rw [dropWhile_append_of_all _ pfx.data ds (fun a ha => decide_eq_true ha)]
  cases ds with
  | nil => exact absurd rfl h0
  | cons d dt =>
    have hdd : decide (d ∈ pfx.data) = false :=
      decide_eq_false (not_mem_of_isDig d pfx.data (hd d (List.mem_cons_self d dt)) hpfx)
    rw [dropWhile_cons_false _ d dt hdd]
    exact pyInt_of_digits (d :: dt) (List.cons_ne_nil d dt) hd

/-! ### Lemmas about the latest-entry resolver -/

theorem filter_eq_self_of_all (p : String → Bool) :
    ∀ l : List String, (∀ a ∈ l, p a = true) → l.filter p = l := by
  intro l
  induction l with
  | nil => intro _; rfl
  | cons a t ih =>
    intro h
    rw [List.filter_cons, if_pos (h a (List.mem_cons_self a t))]
    rw [ih (fun b hb => h b (List.mem_cons_of_mem a hb))]

theorem filter_eq_nil_of_all (p : String → Bool) :
    ∀ l : List String, (∀ a ∈ l, p a = false) → l.filter p = [] := by
  intro l
  induction l with
  | nil => intro _; rfl
  | cons a t ih =>
    intro h
    rw [List.filter_cons, if_neg (by simp [h a (List.mem_cons_self a t)])]
    exact ih (fun b hb => h b (List.mem_cons_of_mem a hb))

theorem maxByKeyAux_spec (key : String → Option Int) :
    ∀ (l : List String) (best : String) (kbest : Int),
      key best = some kbest →
      (∀ c ∈ l, ∃ k, key c = some k) →
      ∃ m km pre post,
        maxByKeyAux key best kbest l = Res.ok m ∧
        key m = some km ∧ kbest ≤ km ∧
        best :: l = pre ++ m :: post ∧
        (∀ c ∈ pre, ∀ kc, key c = some kc → kc < km) ∧
        (∀ c ∈ post, ∀ kc, key c = some kc → kc ≤ km) := by
  intro l
  induction l with
  | nil =>
    intro best kbest hb _
    exact ⟨best, kbest, [], [], rfl, hb, le_refl _, rfl, by simp, by simp⟩
  | cons c cs ih =>
    intro best kbest hb hl
    obtain ⟨kc, hkc⟩ := hl c (List.mem_cons_self c cs)
    have hcs : ∀ x ∈ cs, ∃ k, key x = some k :=
      fun x hx => hl x (List.mem_cons_of_mem c hx)
    by_cases hlt : kbest < kc
    · obtain ⟨m, km, pre, post, heq, hkm, hle, hsplit, hpre, hpost⟩ := ih c kc hkc hcs
      refine ⟨m, km, best :: pre, post, ?_, hkm, ?_, ?_, ?_, hpost⟩
      · simp only [maxByKeyAux, hkc]
        rw [if_pos hlt]
        exact heq
      · exact le_of_lt (lt_of_lt_of_le hlt hle)
      · rw [List.cons_append, ← hsplit]
      · intro x hx kx hkx
        rcases List.mem_cons.mp hx with rfl | hx'
        · rw [hb] at hkx
          injection hkx with h'
          subst h'
          exact lt_of_lt_of_le hlt hle
        · exact hpre x hx' kx hkx
    · obtain ⟨m, km, pre, post, heq, hkm, hle, hsplit, hpre, hpost⟩ := ih best kbest hb hcs
      have hred : maxByKeyAux key best kbest (c :: cs) = maxByKeyAux key best kbest cs := by
        simp only [maxByKeyAux, hkc]
        rw [if_neg hlt]
      cases pre with
      | nil =>
        have hm : best = m ∧ cs = post := by
          rw [List.nil_append] at hsplit
          exact ⟨List.head_eq_of_cons_eq hsplit, List.tail_eq_of_cons_eq hsplit⟩
        obtain ⟨hm1, hm2⟩ := hm
        refine ⟨m, km, [], c :: post, ?_, hkm, hle, ?_, by simp, ?_⟩
        · rw [hred]
          exact heq
        · rw [List.nil_append, ← hm1, hm2]
        · intro x hx kx hkx
          rcases List.mem_cons.mp hx with rfl | hx'
          · rw [hkc] at hkx
            injection hkx with h'
            subst h'
            exact le_trans (not_lt.mp hlt) hle
          · exact hpost x hx' kx hkx
      | cons b pre' =>
        have hb' : best = b :=
          List.head_eq_of_cons_eq (by rw [hsplit, List.cons_append])
        have hcs' : cs = pre' ++ m :: post :=
          List.tail_eq_of_cons_eq (by rw [hsplit, List.cons_append])
        have hbestlt : kbest < km := hpre b (List.mem_cons_self b pre') kbest (hb' ▸ hb)
        refine ⟨m, km, best :: c :: pre', post, ?_, hkm, hle, ?_, ?_, hpost⟩
        · rw [hred]
          exact heq
        · rw [hcs']
          rfl
        · intro x hx kx hkx
          rcases List.mem_cons.mp hx with rfl | hx'
          · rw [hb] at hkx
            injection hkx with h'
            subst h'
            exact hbestlt
          · rcases List.mem_cons.mp hx' with rfl | hx''
            · rw [hkc] at hkx
              injection hkx with h'
              subst h'
              exact lt_of_le_of_lt (not_lt.mp hlt) hbestlt
            · exact hpre x (List.mem_cons_of_mem b hx'') kx hkx

theorem maxByKeyAux_err (key : String → Option Int) :
    ∀ (l : List String) (best : String) (kbest : Int),
      (∃ c ∈ l, key c = none) → maxByKeyAux key best kbest l = Res.err := by
  intro l
  induction l with
  | nil =>
    intro best kbest h
    obtain ⟨c, hc, _⟩ := h
    exact absurd hc (List.not_mem_nil c)
  | cons c cs ih =>
    intro best kbest h
    obtain ⟨x, hx, hxe⟩ := h
    rcases List.mem_cons.mp hx with rfl | hx'
    · simp only [maxByKeyAux, hxe]
    · cases hkc : key c with
      | none => simp only [maxByKeyAux, hkc]
      | some kc =>
        simp only [maxByKeyAux, hkc]
        by_cases hlt : kbest < kc
        · rw [if_pos hlt]
          exact ih c kc ⟨x, hx', hxe⟩
        · rw [if_neg hlt]
          exact ih best kbest ⟨x, hx', hxe⟩

theorem pyMax_err_iff (key : String → Option Int) (l : List String) :
    pyMax key l = Res.err ↔ ∃ c ∈ l, key c = none := by
  cases l with
  | nil => simp [pyMax]
  | cons x xs =>
    cases hx : key x with
    | none =>
      simp only [pyMax, hx]
      constructor
      · intro _
        exact ⟨x, List.mem_cons_self x xs, hx⟩
      · intro _
        trivial
    | some kx =>
      simp only [pyMax, hx]
      by_cases hall : ∀ c ∈ xs, ∃ k, key c = some k
      · obtain ⟨m, km, pre, post, heq, _⟩ := maxByKeyAux_spec key xs x kx hx hall
        simp only [heq]
        constructor
        · intro h
          exact absurd h (by simp)
        · rintro ⟨c, hc, hce⟩
          rcases List.mem_cons.mp hc with rfl | hc'
          · rw [hx] at hce
            exact Option.noConfusion hce
          · obtain ⟨k, hk⟩ := hall c hc'
            rw [hk] at hce
            exact Option.noConfusion hce
      · push_neg at hall
        obtain ⟨c, hc, hcn⟩ := hall
        have hce : key c = none := by
          cases hkc : key c with
          | none => rfl
          | some k => exact absurd hkc (hcn k)
        simp only [maxByKeyAux_err key xs x kx ⟨c, hc, hce⟩]
        constructor
        · intro _
          exact ⟨c, List.mem_cons_of_mem x hc, hce⟩
        · intro _
          trivial

/-! ### Lemmas about the pipeline -/

theorem parse_args_ok_valid (argv : List String) (args : Args)
    (h : parse_args argv = Res.ok args) :
    (args.directory = "p" ∨ args.directory = "a") ∧ (args.hw = "c" ∨ args.hw = "h") := by
  unfold parse_args at h
  cases hpt : parseTokens argv [] none none with
  | err =>
    rw [hpt] at h
    exact absurd h (by simp)
  | ok t =>
    obtain ⟨pos, c, w⟩ := t
    simp only [hpt] at h
    rcases pos with _ | ⟨d, _ | ⟨hw2, _ | ⟨x, rest⟩⟩⟩
    · exact absurd h (by simp [parsePos])
    · simp only [parsePos] at h
      by_cases hd : d ∈ COURSES.map Prod.fst
      · rw [if_pos hd] at h
        injection h with h'
        subst h'
        refine ⟨?_, Or.inr rfl⟩
        simpa [COURSES] using hd
      · rw [if_neg hd] at h
        exact absurd h (by simp)
    · simp only [parsePos] at h
      by_cases hd : d ∈ COURSES.map Prod.fst ∧ (hw2 = "c" ∨ hw2 = "h")
      · rw [if_pos hd] at h
        injection h with h'
        subst h'
        exact ⟨by simpa [COURSES] using hd.1, hd.2⟩
      · rw [if_neg hd] at h
        exact absurd h (by simp)
    · exact absurd h (by simp [parsePos])

theorem mkdirW_ok_fs (w : World) (p : List String) (w' : World)
    (h : mkdirW w p = Res.ok w') :
    mkdir_gracefully w.fs p = Res.ok w'.fs := by
  unfold mkdirW at h
  cases hg : mkdir_gracefully w.fs p with
  | err =>
    rw [hg] at h
    exact absurd h (by simp)
  | ok fs' =>
    rw [hg] at h
    injection h with h'
    rw [← h']

theorem mkdirW_mem (w : World) (p : List String) (w' : World)
    (h : mkdirW w p = Res.ok w') :
    (p ≠ [] → p ∈ w'.fs.dirs) ∧ (∀ q ∈ w.fs.dirs, q ∈ w'.fs.dirs) := by
  obtain ⟨_, _, hanc, hmono⟩ := mkdir_gracefully_ok _ _ _ (mkdirW_ok_fs w p w' h)
  exact ⟨fun hne => hanc p (self_mem_ancestors p hne), hmono⟩

theorem mkdirW_anc (w : World) (p : List String) (w' : World)
    (h : mkdirW w p = Res.ok w') :
    ∀ q ∈ ancestors p, q ∈ w'.fs.dirs := by
  obtain ⟨_, _, hanc, _⟩ := mkdir_gracefully_ok _ _ _ (mkdirW_ok_fs w p w' h)
  exact hanc

theorem create_week_dir_ok (w : World) (wp : List String) (w' : World)
    (h : create_week_dir w wp = Res.ok w') :
    (wp ≠ [] → wp ∈ w'.fs.dirs) ∧
    (wp ++ ["classwork"]) ∈ w'.fs.dirs ∧
    (wp ++ ["homework", "src"]) ∈ w'.fs.dirs ∧
    (wp ++ ["homework", "answ"]) ∈ w'.fs.dirs := by
  unfold create_week_dir at h
  cases h1 : mkdirW w (wp ++ ["classwork"]) with
  | err =>
    rw [h1] at h
    exact absurd h (by simp)
  | ok w1 =>
    simp only [h1] at h
    cases h2 : mkdirW w1 (wp ++ ["homework", "src"]) with
    | err =>
      rw [h2] at h
      exact absurd h (by simp)
    | ok w2 =>
      simp only [h2] at h
      have hcw1 : (wp ++ ["classwork"]) ∈ w1.fs.dirs :=
        (mkdirW_mem w _ w1 h1).1 (by simp)
      have hwp1 : wp ≠ [] → wp ∈ w1.fs.dirs := fun hne =>
        mkdirW_anc w _ w1 h1 wp (mem_ancestors_append wp ["classwork"] hne)
      have hcw2 : (wp ++ ["classwork"]) ∈ w2.fs.dirs :=
        (mkdirW_mem w1 _ w2 h2).2 _ hcw1
      have hsrc2 : (wp ++ ["homework", "src"]) ∈ w2.fs.dirs :=
        (mkdirW_mem w1 _ w2 h2).1 (by simp)
      refine ⟨?_, (mkdirW_mem w2 _ w' h).2 _ hcw2, (mkdirW_mem w2 _ w' h).2 _ hsrc2,
        (mkdirW_mem w2 _ w' h).1 (by simp)⟩
      intro hne
      exact (mkdirW_mem w2 _ w' h).2 _ ((mkdirW_mem w1 _ w2 h2).2 _ (hwp1 hne))

theorem get_course_none (w : World) (path : List String) (args : Args)
    (hc : args.c = none) :
    get_course w path args =
      (get_latest_course (listdir w.fs path), ⟨w.fs, w.ops ++ [Op.listDir path]⟩) := by
  unfold get_course
  rw [hc]
  rfl

theorem get_week_none (w : World) (course_path : List String) (args : Args)
    (hw : args.w = none) :
    get_week w course_path args =
      (get_latest_week (listdir w.fs course_path),
        ⟨w.fs, w.ops ++ [Op.listDir course_path]⟩) := by
  unfold get_week
  rw [hw]
  rfl

/-! ### Claim theorems -/

/-- C1 (counterexample): `"coursee5"` passes the prefix filter and its
remainder after the prefix, `"e5"`, is not a base-10 integer, yet
`get_latest_course` succeeds (returning the name) instead of raising,
because `lstrip("course")` removes the second `e` as well: the claim's
"raises exactly when some prefix-matching name's remainder after the prefix
is not a base-10 integer" is false in the "exactly when" direction. -/
theorem claim1_counterexample :
    startswith "coursee5" "course" = true ∧
    pyInt (suffixAfter "coursee5" "course") = none ∧
    get_latest_course ["coursee5"] = Res.ok (some "coursee5") := by decide

/-- C1 (amended): `find_latest` (as `get_latest_course` / `get_latest_week`)
first filters to names starting with the prefix and raises `ValueError`
(the spec's `MalformedDirectoryName`), failing the whole lookup, exactly
when some prefix-matching name fails integer parsing after removal of its
longest leading run of characters drawn from the prefix's character set
(Python `lstrip` semantics) — not after removal of the prefix substring. -/
theorem claim1_error_iff_lstrip_fails (names : List String) :
    (get_latest_course names = Res.err ↔
      ∃ c ∈ names.filter (fun c => startswith c "course"), stripKey "course" c = none) ∧
    (get_latest_week names = Res.err ↔
      ∃ c ∈ names.filter (fun c => startswith c "week"), stripKey "week" c = none) :=
  ⟨pyMax_err_iff (stripKey "course") (names.filter (fun c => startswith c "course")),
   pyMax_err_iff (stripKey "week") (names.filter (fun c => startswith c "week"))⟩

/-- C3: on candidate names that are the prefix followed by a nonempty digit
string, with pairwise distinct parsed suffix values, `find_latest` returns
the (unique) name whose suffix has the maximum integer value — numeric, not
lexicographic, comparison. -/
theorem claim3_numeric_max (pfx : String) (names : List String)
    (hpfx : ∀ ch ∈ pfx.data, isDig ch = false)
    (hne : names ≠ [])
    (hform : ∀ c ∈ names, ∃ ds : List Char,
      ds ≠ [] ∧ (∀ ch ∈ ds, isDig ch = true) ∧ c = ⟨pfx.data ++ ds⟩)
    (hdist : ∀ c₁ ∈ names, ∀ c₂ ∈ names, c₁ ≠ c₂ → stripKey pfx c₁ ≠ stripKey pfx c₂) :
    ∃ m km, find_latest pfx names = Res.ok (some m) ∧ m ∈ names ∧
      stripKey pfx m = some km ∧
      ∀ c ∈ names, c ≠ m → ∀ kc, stripKey pfx c = some kc → kc < km := by
  have hsw : ∀ c ∈ names, startswith c pfx = true := by
    intro c hc
    obtain ⟨ds, _, _, hc'⟩ := hform c hc
    rw [hc']
    exact startswith_append pfx ds
  have hkey : ∀ c ∈ names, ∃ k, stripKey pfx c = some k := by
    intro c hc
    obtain ⟨ds, h0, hd, hc'⟩ := hform c hc
    exact ⟨_, by rw [hc']; exact stripKey_digit_suffix pfx hpfx ds h0 hd⟩
  obtain ⟨x, xs, hxxs⟩ : ∃ x xs, names = x :: xs := by
    cases names with
    | nil => exact absurd rfl hne
    | cons x xs => exact ⟨x, xs, rfl⟩
  subst hxxs
  obtain ⟨kx, hkx⟩ := hkey x (List.mem_cons_self x xs)
  obtain ⟨m, km, pre, post, heq, hkm, _, hsplit, hpre, hpost⟩ :=
    maxByKeyAux_spec (stripKey pfx) xs x kx hkx
      (fun c hc => hkey c (List.mem_cons_of_mem x hc))
  have hmem : m ∈ x :: xs := by
    rw [hsplit]
    exact List.mem_append.mpr (Or.inr (List.mem_cons_self m post))
  refine ⟨m, km, ?_, hmem, hkm, ?_⟩
  · unfold find_latest
    rw [filter_eq_self_of_all _ (x :: xs) hsw]
    simp only [pyMax, hkx, heq]
  · intro c hc hcm kc hkc
    rw [hsplit] at hc
    rcases List.mem_append.mp hc with hcp | hcp
    · exact hpre c hcp kc hkc
    · rcases List.mem_cons.mp hcp with rfl | hcp'
      · exact absurd rfl hcm
      · have hle := hpost c hcp' kc hkc
        have hne' : stripKey pfx c ≠ stripKey pfx m := by
          refine hdist c ?_ m hmem hcm
          rw [hsplit]
          exact List.mem_append.mpr (Or.inr (List.mem_cons_of_mem m hcp'))
        have : kc ≠ km := by
          intro hk
          rw [hkc, hkm, hk] at hne'
          exact hne' rfl
        exact lt_of_le_of_ne hle this

/-- C3 (witness): the spec's example — on course1, course2, course10 the
resolver returns course10, the numeric (not lexicographic) maximum. -/
theorem claim3_witness :
    get_latest_course ["course1", "course2", "course10"] = Res.ok (some "course10") ∧
    (∃ m km, find_latest "course" ["course1", "course2", "course10"] = Res.ok (some m) ∧
      m ∈ ["course1", "course2", "course10"] ∧ stripKey "course" m = some km ∧
      ∀ c ∈ ["course1", "course2", "course10"], c ≠ m →
        ∀ kc, stripKey "course" c = some kc → kc < km) := by
  refine ⟨by decide, ?_⟩
  refine claim3_numeric_max "course" ["course1", "course2", "course10"]
    (by decide) (by decide) ?_ (by decide)
  intro c hc
  simp only [List.mem_cons, List.not_mem_nil, or_false] at hc
  rcases hc with rfl | rfl | rfl
  · exact ⟨['1'], by decide, by decide, by decide⟩
  · exact ⟨['2'], by decide, by decide, by decide⟩
  · exact ⟨['1', '0'], by decide, by decide, by decide⟩

/-- C5: `mkdir_gracefully` is idempotent — a second call on the same path
succeeds with the identical filesystem state — and it creates the path and
all missing ancestors, never touching the file set or removing existing
directories. -/
theorem claim5_mkdir_idempotent (fs fs' : FS) (p : List String)
    (h : mkdir_gracefully fs p = Res.ok fs') :
    mkdir_gracefully fs' p = Res.ok fs' ∧
    fs'.files = fs.files ∧
    (∀ q ∈ ancestors p, q ∈ fs'.dirs) ∧
    (p ≠ [] → p ∈ fs'.dirs) ∧
    (∀ q ∈ fs.dirs, q ∈ fs'.dirs) := by
  obtain ⟨hfiles, _, hanc, hmono⟩ := mkdir_gracefully_ok fs fs' p h
  exact ⟨mkdir_gracefully_ok_again fs fs' p h, hfiles, hanc,
    fun hne => hanc p (self_mem_ancestors p hne), hmono⟩

/-- C5 (witness): creating `a/b` over an existing `a` holding a file
succeeds, a second call returns the same state, and the file is intact. -/
theorem claim5_witness :
    mkdir_gracefully (FS.mk [["a"]] [["a", "note.txt"]]) ["a", "b"] =
      Res.ok (FS.mk [["a"], ["a", "b"]] [["a", "note.txt"]]) ∧
    (mkdir_gracefully (FS.mk [["a"], ["a", "b"]] [["a", "note.txt"]]) ["a", "b"] =
        Res.ok (FS.mk [["a"], ["a", "b"]] [["a", "note.txt"]]) ∧
      (FS.mk [["a"], ["a", "b"]] [["a", "note.txt"]]).files =
        (FS.mk [["a"]] [["a", "note.txt"]]).files ∧
      (∀ q ∈ ancestors ["a", "b"], q ∈ (FS.mk [["a"], ["a", "b"]] [["a", "note.txt"]]).dirs) ∧
      (["a", "b"] ≠ ([] : List String) →
        ["a", "b"] ∈ (FS.mk [["a"], ["a", "b"]] [["a", "note.txt"]]).dirs) ∧
      (∀ q ∈ (FS.mk [["a"]] [["a", "note.txt"]]).dirs,
        q ∈ (FS.mk [["a"], ["a", "b"]] [["a", "note.txt"]]).dirs)) :=
  ⟨by decide, claim5_mkdir_idempotent _ _ _ (by decide)⟩

/-- C6: when no candidate name starts with the prefix, the resolver returns
`None` — not an error and not a name. -/
theorem claim6_empty_filter (namesC namesW : List String)
    (hc : ∀ c ∈ namesC, startswith c "course" = false)
    (hw : ∀ w ∈ namesW, startswith w "week" = false) :
    get_latest_course namesC = Res.ok none ∧ get_latest_week namesW = Res.ok none := by
  constructor
  · unfold get_latest_course find_latest
    rw [filter_eq_nil_of_all _ namesC hc]
    rfl
  · unfold get_latest_week find_latest
    rw [filter_eq_nil_of_all _ namesW hw]
    rfl

/-- C6 (witness): a listing with no course- or week-named entries resolves
to `None` for both lookups. -/
theorem claim6_witness :
    get_latest_course ["alpha", "beta"] = Res.ok none ∧
    get_latest_week ["alpha", "beta"] = Res.ok none :=
  claim6_empty_filter ["alpha", "beta"] ["alpha", "beta"] (by decide) (by decide)

/-- C9: when all prefix-matching candidates have parseable suffixes, the
resolver returns the FIRST candidate (in listing order) attaining the
maximal suffix value: everything before it in the filtered listing is
strictly smaller, everything after it is at most equal. -/
theorem claim9_first_maximal (pfx : String) (names : List String)
    (hall : ∀ c ∈ names.filter (fun c => startswith c pfx), ∃ k, stripKey pfx c = some k)
    (hne : names.filter (fun c => startswith c pfx) ≠ []) :
    ∃ m km pre post,
      find_latest pfx names = Res.ok (some m) ∧
      stripKey pfx m = some km ∧
      names.filter (fun c => startswith c pfx) = pre ++ m :: post ∧
      (∀ c ∈ pre, ∀ kc, stripKey pfx c = some kc → kc < km) ∧
      (∀ c ∈ post, ∀ kc, stripKey pfx c = some kc → kc ≤ km) := by
  cases hf : names.filter (fun c => startswith c pfx) with
  | nil => exact absurd hf hne
  | cons x xs =>
    rw [hf] at hall
    obtain ⟨kx, hkx⟩ := hall x (List.mem_cons_self x xs)
    obtain ⟨m, km, pre, post, heq, hkm, _, hsplit, hpre, hpost⟩ :=
      maxByKeyAux_spec (stripKey pfx) xs x kx hkx
        (fun c hc => hall c (List.mem_cons_of_mem x hc))
    refine ⟨m, km, pre, post, ?_, hkm, ?_, hpre, hpost⟩
    · unfold find_latest
      rw [hf]
      simp only [pyMax, hkx, heq]
    · exact hsplit

/-- C9 (witness): course2 and course02 both parse to 2; the resolver
returns course2, the first maximal element of the listing order. -/
theorem claim9_witness :
    get_latest_course ["course2", "course02"] = Res.ok (some "course2") ∧
    (∃ m km pre post,
      find_latest "course" ["course2", "course02"] = Res.ok (some m) ∧
      stripKey "course" m = some km ∧
      ["course2", "course02"].filter (fun c => startswith c "course") = pre ++ m :: post ∧
      (∀ c ∈ pre, ∀ kc, stripKey "course" c = some kc → kc < km) ∧
      (∀ c ∈ post, ∀ kc, stripKey "course" c = some kc → kc ≤ km)) := by
  refine ⟨by decide, ?_⟩
  refine claim9_first_maximal "course" ["course2", "course02"] ?_ (by decide)
  intro c hc
  have hfilt : ["course2", "course02"].filter (fun c => startswith c "course") =
      ["course2", "course02"] := by decide
  rw [hfilt] at hc
  simp only [List.mem_cons, List.not_mem_nil, or_false] at hc
  rcases hc with rfl | rfl
  · exact ⟨2, by decide⟩
  · exact ⟨2, by decide⟩

/-- C2 (counterexample): with no explicit course or week identifier at all
(`args.c = args.w = none`), a run against an empty filesystem still creates
a directory — `main` unconditionally materializes the category base
directory — so "resolution creates no new directories; only explicit
identifiers trigger directory materialization" is false as stated. -/
theorem claim2_counterexample :
    parse_args ["a"] = Res.ok (Args.mk "a" "h" none none) ∧
    (main ["a"] (FS.mk [] [])).fs ≠ FS.mk [] [] := by decide

/-- C2 (amended): apart from the idempotent materialization of the category
base directory, which every run performs, an invocation without `-c` and
`-w` is a pure lookup: the final filesystem equals the state right after
the base-directory creation, and the base directory is the only path any
`mkdir` is invoked on. -/
theorem claim2_pure_lookup (argv : List String) (fs : FS) (args : Args) (fs1 : FS)
    (hp : parse_args argv = Res.ok args)
    (hc : args.c = none) (hw : args.w = none)
    (hm : mkdir_gracefully fs [selectedDirname args.directory] = Res.ok fs1) :
    (main argv fs).fs = fs1 ∧
    (∀ p, Op.mkdirOp p ∈ (main argv fs).ops → p = [selectedDirname args.directory]) := by
  have hm' : mkdirW ⟨fs, []⟩ [selectedDirname args.directory] =
      Res.ok ⟨fs1, [Op.mkdirOp [selectedDirname args.directory]]⟩ := by
    simp only [mkdirW, hm, List.nil_append]
  have hgc := get_course_none ⟨fs1, [Op.mkdirOp [selectedDirname args.directory]]⟩
    [selectedDirname args.directory] args hc
  simp only [main, hp, hm', hgc]
  split
  · rename_i heq
    injection heq with h1 h2
    subst h2
    exact ⟨rfl, fun p hp' => by simpa using hp'⟩
  · rename_i heq
    injection heq with h1 h2
    subst h2
    exact ⟨rfl, fun p hp' => by simpa using hp'⟩
  · rename_i heq
    injection heq with h1 h2
    subst h2
    simp only [get_week_none _ _ _ hw]
    split
    · rename_i heq2
      injection heq2 with g1 g2
      subst g2
      exact ⟨rfl, fun p hp' => by simpa using hp'⟩
    · rename_i heq2
      injection heq2 with g1 g2
      subst g2
      exact ⟨rfl, fun p hp' => by simpa using hp'⟩
    · rename_i heq2
      injection heq2 with g1 g2
      subst g2
      split_ifs <;> exact ⟨rfl, fun p hp' => by simpa using hp'⟩

/-- C2 (witness): the spec's end-to-end scenario — alias `a`, no `-c`/`-w`,
mode `c`, root holding only `course3` with `week1` and `week7` — prints
`assembly/course3/week7/classwork`, exits 0, and leaves the filesystem
unchanged, with the base directory the only `mkdir` target. -/
theorem claim2_witness :
    (main ["a", "c"]
        (FS.mk [["assembly"], ["assembly", "course3"], ["assembly", "course3", "week1"],
          ["assembly", "course3", "week7"]] [])).output =
      some ["assembly", "course3", "week7", "classwork"] ∧
    (main ["a", "c"]
        (FS.mk [["assembly"], ["assembly", "course3"], ["assembly", "course3", "week1"],
          ["assembly", "course3", "week7"]] [])).exitCode = 0 ∧
    ((main ["a", "c"]
        (FS.mk [["assembly"], ["assembly", "course3"], ["assembly", "course3", "week1"],
          ["assembly", "course3", "week7"]] [])).fs =
      FS.mk [["assembly"], ["assembly", "course3"], ["assembly", "course3", "week1"],
          ["assembly", "course3", "week7"]] [] ∧
      (∀ p, Op.mkdirOp p ∈ (main ["a", "c"]
          (FS.mk [["assembly"], ["assembly", "course3"], ["assembly", "course3", "week1"],
            ["assembly", "course3", "week7"]] [])).ops →
        p = [selectedDirname (Args.mk "a" "c" none none).directory])) := by
  refine ⟨by decide, by decide, ?_⟩
  exact claim2_pure_lookup ["a", "c"]
    (FS.mk [["assembly"], ["assembly", "course3"], ["assembly", "course3", "week1"],
      ["assembly", "course3", "week7"]] [])
    (Args.mk "a" "c" none none)
    (FS.mk [["assembly"], ["assembly", "course3"], ["assembly", "course3", "week1"],
      ["assembly", "course3", "week7"]] [])
    (by decide) rfl rfl (by decide)

/-- C4: on every invocation with an explicit week identifier (`-w`) —
whether the course is explicit (`-c`) or resolved by the latest-course
lookup — a run that exits successfully has created the week directory and
materialized the week scaffold beneath it: `classwork`, `homework/src` and
`homework/answ`; in mode `h` it prints the `homework/answ` leaf of that
week. -/
theorem claim4_week_scaffold (argv : List String) (fs : FS) (args : Args) (wid : String)
    (hp : parse_args argv = Res.ok args)
    (hw : args.w = some wid) :
    (main argv fs).exitCode = 0 →
      ∃ course,
        [selectedDirname args.directory, course, "week" ++ wid] ∈ (main argv fs).fs.dirs ∧
        [selectedDirname args.directory, course, "week" ++ wid, "classwork"]
            ∈ (main argv fs).fs.dirs ∧
        [selectedDirname args.directory, course, "week" ++ wid, "homework", "src"]
            ∈ (main argv fs).fs.dirs ∧
        [selectedDirname args.directory, course, "week" ++ wid, "homework", "answ"]
            ∈ (main argv fs).fs.dirs ∧
        (args.hw = "h" → (main argv fs).output =
          some [selectedDirname args.directory, course, "week" ++ wid,
            "homework", "answ"]) := by
  simp only [main, hp]
  split
  · intro h0
    exact absurd h0 one_ne_zero
  · rename_i w1 heqb
    split
    · intro h0
      exact absurd h0 one_ne_zero
    · intro h0
      simp at h0
    · rename_i course w2 heqc
      simp only [get_week, hw]
      split
      · intro h0
        exact absurd h0 one_ne_zero
      · intro h0
        simp at h0
      · rename_i week w4 heqw
        cases hcw : create_week_dir w2
            ([selectedDirname args.directory] ++ [course] ++ ["week" ++ wid]) with
        | err =>
          rw [hcw] at heqw
          exact absurd heqw (by simp)
        | ok w5 =>
          rw [hcw] at heqw
          injection heqw with g1 g2
          injection g1 with g1'
          injection g1' with g1''
          subst g1''
          subst g2
          have hmem := create_week_dir_ok _ _ _ hcw
          split_ifs with hhw1 hhw2
          · intro _
            refine ⟨course, by simpa using hmem.1 (by simp), by simpa using hmem.2.1,
              by simpa using hmem.2.2.1, by simpa using hmem.2.2.2, ?_⟩
            intro hh
            rw [hhw1] at hh
            exact absurd hh (by decide)
          · intro _
            refine ⟨course, by simpa using hmem.1 (by simp), by simpa using hmem.2.1,
              by simpa using hmem.2.2.1, by simpa using hmem.2.2.2, ?_⟩
            intro _
            simp
          · intro _
            exact ⟨course, by simpa using hmem.1 (by simp), by simpa using hmem.2.1,
              by simpa using hmem.2.2.1, by simpa using hmem.2.2.2,
              fun hh => absurd hh hhw2⟩

/-- C4 (witness): the spec's end-to-end scenario — alias `p`, mode `h`,
`-c 5 -w 2` on an empty root — prints
`programming_cpp/course5/week2/homework/answ`, the three scaffold
directories exist concretely afterwards, and the scaffold theorem applies
to the run. -/
theorem claim4_witness :
    (main ["p", "h", "-c", "5", "-w", "2"] (FS.mk [] [])).output =
      some ["programming_cpp", "course5", "week2", "homework", "answ"] ∧
    (["programming_cpp", "course5", "week2", "classwork"]
        ∈ (main ["p", "h", "-c", "5", "-w", "2"] (FS.mk [] [])).fs.dirs ∧
     ["programming_cpp", "course5", "week2", "homework", "src"]
        ∈ (main ["p", "h", "-c", "5", "-w", "2"] (FS.mk [] [])).fs.dirs ∧
     ["programming_cpp", "course5", "week2", "homework", "answ"]
        ∈ (main ["p", "h", "-c", "5", "-w", "2"] (FS.mk [] [])).fs.dirs) ∧
    ((main ["p", "h", "-c", "5", "-w", "2"] (FS.mk [] [])).exitCode = 0 →
      ∃ course,
        ["programming_cpp", course, "week2"]
            ∈ (main ["p", "h", "-c", "5", "-w", "2"] (FS.mk [] [])).fs.dirs ∧
        ["programming_cpp", course, "week2", "classwork"]
            ∈ (main ["p", "h", "-c", "5", "-w", "2"] (FS.mk [] [])).fs.dirs ∧
        ["programming_cpp", course, "week2", "homework", "src"]
            ∈ (main ["p", "h", "-c", "5", "-w", "2"] (FS.mk [] [])).fs.dirs ∧
        ["programming_cpp", course, "week2", "homework", "answ"]
            ∈ (main ["p", "h", "-c", "5", "-w", "2"] (FS.mk [] [])).fs.dirs ∧
        ((Args.mk "p" "h" (some "5") (some "2")).hw = "h" →
          (main ["p", "h", "-c", "5", "-w", "2"] (FS.mk [] [])).output =
            some ["programming_cpp", course, "week2", "homework", "answ"])) :=
  ⟨by decide, by decide,
    claim4_week_scaffold ["p", "h", "-c", "5", "-w", "2"] (FS.mk [] [])
      (Args.mk "p" "h" (some "5") (some "2")) "2" (by decide) rfl⟩

/-- C7: when the arguments parse but no explicit identifier is given and
the corresponding latest-lookup finds nothing (`None`), the run exits with
a non-zero status and the `parser.error` message telling the user to pass
the explicit flag — for the course level and for the week level. -/
theorem claim7_no_selection (argv : List String) (fs : FS) (args : Args) (fs1 : FS)
    (hp : parse_args argv = Res.ok args)
    (hm : mkdir_gracefully fs [selectedDirname args.directory] = Res.ok fs1) :
    (args.c = none →
      get_latest_course (listdir fs1 [selectedDirname args.directory]) = Res.ok none →
      (main argv fs).exitCode ≠ 0 ∧ (main argv fs).err = some noCourseMsg) ∧
    (∀ course w2, args.w = none →
      get_course ⟨fs1, [Op.mkdirOp [selectedDirname args.directory]]⟩
          [selectedDirname args.directory] args = (Res.ok (some course), w2) →
      get_latest_week (listdir w2.fs ([selectedDirname args.directory] ++ [course])) =
        Res.ok none →
      (main argv fs).exitCode ≠ 0 ∧ (main argv fs).err = some noWeekMsg) := by
  have hm' : mkdirW ⟨fs, []⟩ [selectedDirname args.directory] =
      Res.ok ⟨fs1, [Op.mkdirOp [selectedDirname args.directory]]⟩ := by
    simp only [mkdirW, hm, List.nil_append]
  constructor
  · intro hc hnone
    have hgc := get_course_none ⟨fs1, [Op.mkdirOp [selectedDirname args.directory]]⟩
      [selectedDirname args.directory] args hc
    simp only [main, hp, hm', hgc, hnone]
    exact ⟨by simp, trivial⟩
  · intro course w2 hw hgc2 hwnone
    simp only [main, hp, hm', hgc2, get_week_none _ _ _ hw, hwnone]
    exact ⟨by simp, trivial⟩

/-- C7 (witness): the spec's end-to-end failure — no `-c` against an empty
category root — exits non-zero with the no-course-directory message. -/
theorem claim7_witness :
    (main ["a"] (FS.mk [] [])).exitCode ≠ 0 ∧
    (main ["a"] (FS.mk [] [])).err = some noCourseMsg :=
  (claim7_no_selection ["a"] (FS.mk [] []) (Args.mk "a" "h" none none)
      (FS.mk [["assembly"]] []) (by decide) (by decide)).1 rfl (by decide)

/-- C8: every command line the parser accepts has a configured category
alias and a valid leaf mode (so an invalid alias or mode is rejected), and
a rejected command line makes the run exit with status 2 before any
filesystem access: the filesystem is untouched and the operation trace is
empty — nothing is listed or created. -/
theorem claim8_usage_before_fs (argv : List String) (fs : FS) :
    (∀ args, parse_args argv = Res.ok args →
      (args.directory = "p" ∨ args.directory = "a") ∧ (args.hw = "c" ∨ args.hw = "h")) ∧
    (parse_args argv = Res.err →
      main argv fs = ⟨2, none, some "usage", fs, []⟩) := by
  refine ⟨fun args h => parse_args_ok_valid argv args h, fun h => ?_⟩
  simp only [main, h]

/-- C10: on every accepted command line the leaf mode is exactly `c` or
`h`, so every run that exits 0 prints a path ending in `classwork` or in
`homework/answ` — the final branch printing the bare week directory is
unreachable. -/
theorem claim10_leaf_modes (argv : List String) (args : Args) (fs : FS)
    (hp : parse_args argv = Res.ok args) :
    (args.hw = "c" ∨ args.hw = "h") ∧
    ((main argv fs).exitCode = 0 →
      ∃ q, (main argv fs).output = some (q ++ ["classwork"]) ∨
        (main argv fs).output = some (q ++ ["homework", "answ"])) := by
  have hv := parse_args_ok_valid argv args hp
  refine ⟨hv.2, ?_⟩
  simp only [main, hp]
  split
  · intro h0
    exact absurd h0 one_ne_zero
  · rename_i w1 heqb
    split
    · intro h0
      exact absurd h0 one_ne_zero
    · intro h0
      simp at h0
    · rename_i course w2 heqc
      split
      · intro h0
        exact absurd h0 one_ne_zero
      · intro h0
        simp at h0
      · rename_i week w3 heqw
        intro _
        rcases hv.2 with hh | hh
        · rw [if_pos hh]
          exact ⟨[selectedDirname args.directory] ++ [course] ++ [week], Or.inl rfl⟩
        · by_cases hch : args.hw = "c"
          · rw [if_pos hch]
            exact ⟨[selectedDirname args.directory] ++ [course] ++ [week], Or.inl rfl⟩
          · rw [if_neg hch, if_pos hh]
            exact ⟨[selectedDirname args.directory] ++ [course] ++ [week], Or.inr rfl⟩

/-- C10 (witness): a successful explicit run in mode `c` prints a
`classwork` leaf, instantiating the leaf-mode theorem. -/
theorem claim10_witness :
    ((Args.mk "p" "c" (some "1") (some "3")).hw = "c" ∨
      (Args.mk "p" "c" (some "1") (some "3")).hw = "h") ∧
    ((main ["p", "c", "-c", "1", "-w", "3"] (FS.mk [] [])).exitCode = 0 →
      ∃ q, (main ["p", "c", "-c", "1", "-w", "3"] (FS.mk [] [])).output =
          some (q ++ ["classwork"]) ∨
        (main ["p", "c", "-c", "1", "-w", "3"] (FS.mk [] [])).output =
          some (q ++ ["homework", "answ"])) :=
  claim10_leaf_modes ["p", "c", "-c", "1", "-w", "3"] (Args.mk "p" "c" (some "1") (some "3"))
    (FS.mk [] []) (by decide)

end Cdl
